import Mathlib

/-!
Shallow embedding of `docarray/array/array/array.py` (class `DocArray`).

Python values that flow through the container are modelled by the inductive
type `Val`: integers, strings, dicts (`Val.mapping`) and pydantic-style
record objects (`Val.record`, carrying the class name and the field
assignments).  Python classes (the `BaseDoc` subclasses that serve as
document schemas) are modelled by `ClassDef` entries in a class
environment `Env`; `issubclass` walks the parent chain and `isinstance`
compares the class name of an object against it.

Each method of `DocArray` is translated into an executable Lean function
over a `DocArray` structure (the bound document-type name plus the backing
list).  Exceptions become `Except Err` / `Option Err` results; operations
whose CPython semantics mutate the list before an exception escapes
(`list.extend` over a generator, the `zip` loop of `_set_data_column`)
return the partially mutated state together with the error, exactly as the
interpreter leaves it.
-/

set_option autoImplicit false

namespace DocArraySpec

/-- Declared field types of a document schema: a scalar/leaf type named by a
string (`int`, `str`, ... ; `Any` is the unconstrained descriptor), a
document class referenced by its class name, or a union of two types. -/
inductive FieldTy where
  | scalarTy : String → FieldTy
  | recordName : String → FieldTy
  | unionTy : FieldTy → FieldTy → FieldTy
  deriving DecidableEq, Repr

/-- A Python class: its name, its parent class name, and its declared
(pydantic) fields.  The root chain ends at a name that has no entry in the
environment (conventionally `object`). -/
structure ClassDef where
  cname : String
  parent : String
  cfields : List (String × FieldTy)
  deriving DecidableEq, Repr

/-- The class environment: the `BaseDoc` subclasses in scope. -/
abbrev Env := List ClassDef

/-- Runtime values: ints, strings, dicts and record (document) objects. -/
inductive Val where
  | vint : Int → Val
  | vstr : String → Val
  | mapping : List (String × Val) → Val
  | record : String → List (String × Val) → Val

mutual

/-- Structural equality on values, modelling pydantic/dict `==`. -/
def valBeq : Val → Val → Bool
  | .vint a, .vint b => a == b
  | .vstr a, .vstr b => a == b
  | .mapping a, .mapping b => fieldsBeq a b
  | .record c a, .record d b => c == d && fieldsBeq a b
  | _, _ => false

/-- Pointwise equality of field-assignment lists. -/
def fieldsBeq : List (String × Val) → List (String × Val) → Bool
  | [], [] => true
  | (k, v) :: r, (l, w) :: s => k == l && valBeq v w && fieldsBeq r s
  | _, _ => false

end

/-- Look a class up by name. -/
def lookupClass (env : Env) (c : String) : Option ClassDef :=
  env.find? (fun cd => cd.cname == c)

/-- Fuelled parent-chain walk implementing Python `issubclass` on class
names; the fuel bounds the chain length. -/
def subclassFuel : Nat → Env → String → String → Bool
  | 0, _, _, _ => false
  | n + 1, env, a, b =>
    if a == b then true
    else
      match lookupClass env a with
      | none => false
      | some cd => subclassFuel n env cd.parent b

/-- Python `issubclass(a, b)` for class names: `a == b` or some ancestor of `a`
equals `b`. -/
def isSubclassName (env : Env) (a b : String) : Bool :=
  subclassFuel (env.length + 1) env a b

/-- Python `isinstance(v, c)`: only record objects are instances of document
classes, and membership goes through the subclass chain. -/
def isinstanceVal (env : Env) (v : Val) (c : String) : Bool :=
  match v with
  | .record cn _ => isSubclassName env cn c
  | _ => false

/-- First-match lookup in a field-assignment list, as a Python dict /
object `__dict__` read. -/
def lookupField : List (String × Val) → String → Option Val
  | [], _ => none
  | (g, u) :: rest, f => if g == f then some u else lookupField rest f

/-- Dict/`__dict__` write: update the first binding of the key in place,
otherwise append a new binding. -/
def setField : List (String × Val) → String → Val → List (String × Val)
  | [], f, w => [(f, w)]
  | (g, u) :: rest, f, w =>
    if g == f then (g, w) :: rest else (g, u) :: setField rest f w

/-- Modelled from the spec (the pydantic field check performed by record
construction is outside `src/`): a value conforms to a declared field type
when it is of the named scalar type (`Any` accepts everything), an
instance of the named document class, or conforms to one side of a union. -/
def valMatchesTy (env : Env) (v : Val) : FieldTy → Bool
  | .scalarTy s =>
    s == "Any" ||
      (match v with
       | .vint _ => s == "int"
       | .vstr _ => s == "str"
       | _ => false)
  | .recordName n => isinstanceVal env v n
  | .unionTy a b => valMatchesTy env v a || valMatchesTy env v b

/-- The errors the modelled operations can raise. -/
inductive Err where
  | valueError : String → Err
  | validationError : String → Err
  | attributeError : String → Err
  | indexError : Err
  | schemaError : String → Err
  deriving DecidableEq, Repr

/-- Abbreviated `str(v)` for error messages: leaf values print their
contents (so `str(5)` is `5`), records print as their class name applied
to elided fields, dicts print as `dict(...)`.  Only the leaf cases are
exercised by the theorems below. -/
def reprVal : Val → String
  | .vint n => toString n
  | .vstr s => s
  | .mapping _ => "dict(...)"
  | .record c _ => c ++ "(...)"

/-- The Python type name of a value. -/
def typeNameOf : Val → String
  | .vint _ => "int"
  | .vstr _ => "str"
  | .mapping _ => "dict"
  | .record c _ => c

/-- The `str` of a class object, as interpolated into the `ValueError`
message of `_validate_one_doc`. -/
def typeRepr (c : String) : String :=
  "<class " ++ c ++ ">"

/-- Does the character sequence `pat` occur contiguously inside `l`?
(Used to state what an error message does and does not name.) -/
def beginsWith : List Char → List Char → Bool
  | [], _ => true
  | _ :: _, [] => false
  | a :: as, b :: bs => a == b && beginsWith as bs

/-- Substring occurrence on character lists. -/
def containsSeq (pat : List Char) : List Char → Bool
  | [] => beginsWith pat []
  | c :: cs => beginsWith pat (c :: cs) || containsSeq pat cs

/-- A message names a thing when the thing occurs in it verbatim. -/
def msgNames (msg : String) (p : String) : Bool :=
  containsSeq p.data msg.data

/-- Modelled from the spec (record constructors live outside `src/`):
keyword construction `C(**kwargs)`.  The unconstrained marker `AnyDoc`
accepts any keyword set unchecked; a concrete class requires every
declared field to be present with a conforming value, failing with a
validation error otherwise. -/
def constructRecord (env : Env) (cname : String) (kwargs : List (String × Val)) :
    Except Err Val :=
  if cname == "AnyDoc" then .ok (.record "AnyDoc" kwargs)
  else
    match lookupClass env cname with
    | none => .error (.schemaError cname)
    | some cd =>
      if cd.cfields.all (fun p =>
          match lookupField kwargs p.1 with
          | some v => valMatchesTy env v p.2
          | none => false) then
        .ok (.record cname kwargs)
      else .error (.validationError cname)

/-- Method `DocArray._validate_one_doc`: a dict is keyword-converted to the bound
document type; otherwise, unless the bound type is (a subclass of)
`AnyDoc`, a non-instance raises a `ValueError` interpolating the doc and the bound type;
everything else passes through unchanged. -/
def validateOneDoc (env : Env) (dt : String) (doc : Val) : Except Err Val :=
  match doc with
  | .mapping kvs => constructRecord env dt kvs
  | v =>
    if !(isSubclassName env dt "AnyDoc") && !(isinstanceVal env v dt) then
      .error (.valueError (reprVal v ++ " is not a " ++ typeRepr dt))
    else .ok v

/-- Full consumption of the `_validate_docs` generator: validate each
element in order, propagating the first failure. -/
def validateDocsAll (env : Env) (dt : String) : List Val → Except Err (List Val)
  | [] => .ok []
  | d :: ds =>
    match validateOneDoc env dt d with
    | .error e => .error e
    | .ok w =>
      match validateDocsAll env dt ds with
      | .error e => .error e
      | .ok ws => .ok (w :: ws)

/-- The inputs on which `_validate_one_doc` is invoked when the
`_validate_docs` generator is consumed until exhaustion or until its first
failure escapes: each element is passed to the validator exactly when it
is reached, and nothing after a failing element is ever touched. -/
def validateDocsCalls (env : Env) (dt : String) : List Val → List Val
  | [] => []
  | d :: ds =>
    d ::
      (match validateOneDoc env dt d with
       | .ok _ => validateDocsCalls env dt ds
       | .error _ => [])

/-- The `DocArray` instance state: the bound document-type name
(`_document_type`, `AnyDoc` by default) and the backing list `data`. -/
structure DocArray where
  docType : String
  data : List Val

/-- Constructor `DocArray.__init__`: `list(self._validate_docs(data))` — the whole
iterable is validated in order and the constructor propagates the first
failure (no instance is produced then). -/
def mkDocArray (env : Env) (dt : String) (docs : List Val) : Except Err DocArray :=
  match validateDocsAll env dt docs with
  | .error e => .error e
  | .ok ws => .ok ⟨dt, ws⟩

/-- Method `DocArray.append`: validate, then push at the end; on a validation
error the list is untouched (the argument is validated before
`list.append` runs). -/
def appendDA (env : Env) (C : DocArray) (doc : Val) : Except Err DocArray :=
  match validateOneDoc env C.docType doc with
  | .error e => .error e
  | .ok w => .ok ⟨C.docType, C.data ++ [w]⟩

/-- The CPython semantics of `list.extend(generator)`: items are appended
one by one as the generator is consumed, so when validation fails the
validated elements before the failure are already in the list and stay
there while the exception escapes. -/
def extendLoop (env : Env) (dt : String) : List Val → List Val → List Val × Option Err
  | acc, [] => (acc, none)
  | acc, d :: ds =>
    match validateOneDoc env dt d with
    | .error e => (acc, some e)
    | .ok w => extendLoop env dt (acc ++ [w]) ds

/-- Method `DocArray.extend`: `self.data.extend(self._validate_docs(docs))`. -/
def extendDA (env : Env) (C : DocArray) (docs : List Val) : DocArray × Option Err :=
  match extendLoop env C.docType C.data docs with
  | (l, e) => (⟨C.docType, l⟩, e)

/-- Position at which `list.insert` places an element: negative indices
count from the end and everything is clamped into `[0, len]`. -/
def pyInsertPos (n : Nat) (i : Int) : Nat :=
  if i < 0 then (max (Int.ofNat n + i) 0).toNat else min i.toNat n

/-- Insert at a (already clamped) position. -/
def insertAt (p : Nat) (w : Val) (l : List Val) : List Val :=
  l.take p ++ w :: l.drop p

/-- Method `DocArray.insert`: validate, then `list.insert`. -/
def insertDA (env : Env) (C : DocArray) (i : Int) (doc : Val) : Except Err DocArray :=
  match validateOneDoc env C.docType doc with
  | .error e => .error e
  | .ok w => .ok ⟨C.docType, insertAt (pyInsertPos C.data.length i) w C.data⟩

/-- Resolve a Python sequence index: negative indices count from the end,
out-of-range resolution yields `none` (an `IndexError`). -/
def pyIndex (n : Nat) (i : Int) : Option Nat :=
  let j : Int := if i < 0 then i + Int.ofNat n else i
  if 0 ≤ j ∧ j < Int.ofNat n then some j.toNat else none

/-- Python `list.pop(i)` (delegated by `DocArray.pop`): remove and return the
element at the resolved index, `IndexError` when out of range. -/
def popDA (C : DocArray) (i : Int) : Except Err (Val × DocArray) :=
  match pyIndex C.data.length i with
  | none => .error .indexError
  | some p =>
    match C.data.get? p with
    | none => .error .indexError
    | some v => .ok (v, ⟨C.docType, C.data.take p ++ C.data.drop (p + 1)⟩)

/-- Python `list.remove(x)` (delegated by `DocArray.remove`): delete the first
element equal to `x`, `ValueError` when absent. -/
def removeLoop (x : Val) : List Val → Option (List Val)
  | [] => none
  | v :: vs =>
    if valBeq v x then some vs
    else
      match removeLoop x vs with
      | none => none
      | some vs2 => some (v :: vs2)

/-- Method `DocArray.remove`. -/
def removeDA (C : DocArray) (x : Val) : Except Err DocArray :=
  match removeLoop x C.data with
  | none => .error (.valueError "list.remove(x): x not in list")
  | some l => .ok ⟨C.docType, l⟩

/-- Insertion step of the stable sort. -/
def insertSorted (le : Val → Val → Bool) (v : Val) : List Val → List Val
  | [] => [v]
  | w :: ws => if le v w then v :: w :: ws else w :: insertSorted le v ws

/-- Modelled from the spec (`list.sort` is the Python built-in, outside
`src/`): an in-place stable sort by a caller-supplied ordering key,
realised here as insertion sort. -/
def sortList (le : Val → Val → Bool) : List Val → List Val
  | [] => []
  | v :: vs => insertSorted le v (sortList le vs)

/-- The mutating `DocArray` operations quantified over by the invariant
claim; `opSort` carries the caller-supplied comparison. -/
inductive Op where
  | opAppend : Val → Op
  | opExtend : List Val → Op
  | opInsert : Int → Val → Op
  | opPop : Int → Op
  | opRemove : Val → Op
  | opReverse : Op
  | opSort : (Val → Val → Bool) → Op

/-- One mutating call: the resulting container state and the escaping
exception, if any (the state is the one the interpreter leaves behind). -/
def runOp (env : Env) (C : DocArray) : Op → DocArray × Option Err
  | .opAppend v =>
    match appendDA env C v with
    | .ok C2 => (C2, none)
    | .error e => (C, some e)
  | .opExtend vs => extendDA env C vs
  | .opInsert i v =>
    match insertDA env C i v with
    | .ok C2 => (C2, none)
    | .error e => (C, some e)
  | .opPop i =>
    match popDA C i with
    | .ok p => (p.2, none)
    | .error e => (C, some e)
  | .opRemove v =>
    match removeDA C v with
    | .ok C2 => (C2, none)
    | .error e => (C, some e)
  | .opReverse => (⟨C.docType, C.data.reverse⟩, none)
  | .opSort le => (⟨C.docType, sortList le C.data⟩, none)

/-- A straight-line sequence of mutating calls, aborted by the first
escaping exception. -/
def runOps (env : Env) (C : DocArray) : List Op → DocArray × Option Err
  | [] => (C, none)
  | op :: ops =>
    match runOp env C op with
    | (C2, none) => runOps env C2 ops
    | (C2, some e) => (C2, some e)

/-- Python `getattr(doc, field)`: a field read on a record object; anything else
has no document fields (`AttributeError`). -/
def getattrVal (v : Val) (f : String) : Option Val :=
  match v with
  | .record _ fs => lookupField fs f
  | _ => none

/-- Python `setattr(doc, field, value)`: a field write on a record object
(`_set_data_column` performs no re-validation); `AttributeError`
otherwise. -/
def setAttrVal (v : Val) (f : String) (w : Val) : Except Err Val :=
  match v with
  | .record c fs => .ok (.record c (setField fs f w))
  | _ => .error (.attributeError f)

/-- Modelled from the spec (`BaseDoc._get_field_type` and the `AnyDoc`
override live outside `src/`): reflection from the bound document type to
the declared type of a field.  A concrete class answers from its declared
fields; the unconstrained marker answers the unconstrained leaf
descriptor, so that column access on it falls to the plain-list branch. -/
def getFieldType (env : Env) (dt : String) (f : String) : Option FieldTy :=
  if isSubclassName env dt "AnyDoc" then some (.scalarTy "Any")
  else
    match lookupClass env dt with
    | none => none
    | some cd => (cd.cfields.find? (fun p => p.1 == f)).map (fun p => p.2)

/-- The branch condition of `_get_data_column`:
`not is_union_type(t) and isinstance(t, type) and issubclass(t, BaseDoc)`. -/
def isDocFieldTy (env : Env) : FieldTy → Bool
  | .recordName n => isSubclassName env n "BaseDoc"
  | _ => false

/-- What `_get_data_column` returns: either a freshly built nested
`DocArray` or a plain list of field values. -/
inductive ColResult where
  | colDA : DocArray → ColResult
  | colList : List Val → ColResult

/-- The record-typed branch of `_get_data_column`: the constructor of the nested
container consumes the generator `(getattr(doc, field) for doc in
self)`, validating each extracted value against the nested document
type. -/
def collectColumn (env : Env) (dtNew : String) (f : String) :
    List Val → Except Err (List Val)
  | [] => .ok []
  | d :: ds =>
    match getattrVal d f with
    | none => .error (.attributeError f)
    | some v =>
      match validateOneDoc env dtNew v with
      | .error e => .error e
      | .ok w =>
        match collectColumn env dtNew f ds with
        | .error e => .error e
        | .ok ws => .ok (w :: ws)

/-- The plain-list branch of `_get_data_column`:
`[getattr(doc, field) for doc in self]`. -/
def collectPlain (f : String) : List Val → Except Err (List Val)
  | [] => .ok []
  | d :: ds =>
    match getattrVal d f with
    | none => .error (.attributeError f)
    | some v =>
      match collectPlain f ds with
      | .error e => .error e
      | .ok vs => .ok (v :: vs)

/-- Method `DocArray._get_data_column`: look the declared field type up, then
either build `DocArray[field_type]` from the extracted values or return
them as a plain list. -/
def getDataColumn (env : Env) (C : DocArray) (f : String) : Except Err ColResult :=
  match getFieldType env C.docType f with
  | none => .error (.attributeError f)
  | some ty =>
    if isDocFieldTy env ty then
      match ty with
      | .recordName n =>
        match collectColumn env n f C.data with
        | .error e => .error e
        | .ok ws => .ok (.colDA ⟨n, ws⟩)
      | _ => .error (.attributeError f)
    else
      match collectPlain f C.data with
      | .error e => .error e
      | .ok vs => .ok (.colList vs)

/-- State-passing form of `_get_data_column`: the method body only reads
`self` (the field-type lookup, the comprehension and the generator contain
no assignment to `self.data` or to any stored record), so the post-state
of the container is its pre-state. -/
def getDataColumnSt (env : Env) (C : DocArray) (f : String) :
    Except Err ColResult × DocArray :=
  (getDataColumn env C f, C)

/-- The value sequence `_set_data_column` iterates over: a nested
`DocArray` iterates its backing list, a plain list iterates itself. -/
def colValues : ColResult → List Val
  | .colDA D => D.data
  | .colList l => l

/-- The `for doc, value in zip(self, values)` loop of `_set_data_column`:
lockstep writes that stop at the shorter sequence; a failing write leaves
the earlier writes in place and the rest untouched. -/
def setColLoop (f : String) : List Val → List Val → List Val × Option Err
  | ds, [] => (ds, none)
  | [], _ => ([], none)
  | d :: ds, w :: ws =>
    match setAttrVal d f w with
    | .error e => (d :: ds, some e)
    | .ok d2 =>
      match setColLoop f ds ws with
      | (rest, e) => (d2 :: rest, e)

/-- Method `DocArray._set_data_column`. -/
def setDataColumn (C : DocArray) (f : String) (values : List Val) :
    DocArray × Option Err :=
  match setColLoop f C.data values with
  | (l, e) => (⟨C.docType, l⟩, e)

/-- Is the value a dict? -/
def isMappingVal : Val → Bool
  | .mapping _ => true
  | _ => false

/-- Is the value a record object? -/
def isRecordVal : Val → Bool
  | .record _ _ => true
  | _ => false

/-! ### Concrete fixtures used by witnesses and counterexamples -/

/-- A small class environment: the `BaseDoc`/`AnyDoc` hierarchy plus a
document class `A` with an int field `x` and a nested document field
`inner` of class `Inner`. -/
def envA : Env :=
  [⟨"BaseDoc", "object", []⟩,
   ⟨"AnyDoc", "BaseDoc", []⟩,
   ⟨"Inner", "BaseDoc", [("y", .scalarTy "int")]⟩,
   ⟨"A", "BaseDoc", [("x", .scalarTy "int"), ("inner", .recordName "Inner")]⟩]

/-- A nested document. -/
def inner1 : Val := .record "Inner" [("y", .vint 10)]

/-- Another nested document. -/
def inner2 : Val := .record "Inner" [("y", .vint 20)]

/-- A document of class `A`. -/
def a1 : Val := .record "A" [("x", .vint 1), ("inner", inner1)]

/-- Another document of class `A`. -/
def a2 : Val := .record "A" [("x", .vint 2), ("inner", inner2)]

/-- A one-element `DocArray[A]`. -/
def CA : DocArray := ⟨"A", [a1]⟩

/-- A two-element `DocArray[A]`. -/
def CA2 : DocArray := ⟨"A", [a1, a2]⟩

/-! ### Helper lemmas -/

/-- Reflexivity of `issubclass`. -/
@[simp] theorem isSubclassName_refl (env : Env) (a : String) :
    isSubclassName env a a = true := by
  simp [isSubclassName, subclassFuel]

/-- A type that is not a subclass of `AnyDoc` is not `AnyDoc` itself. -/
theorem ne_anyDoc_of_not_sub {env : Env} {dt : String}
    (h : isSubclassName env dt "AnyDoc" = false) : (dt == "AnyDoc") = false := by
  cases hb : dt == "AnyDoc" with
  | false => rfl
  | true =>
    rw [show dt = "AnyDoc" from eq_of_beq hb] at h
    rw [isSubclassName_refl] at h
    cases h

/-- Validation returns an instance of the bound type unchanged. -/
theorem validateOneDoc_instance {env : Env} {dt : String} {v : Val}
    (h : isinstanceVal env v dt = true) : validateOneDoc env dt v = .ok v := by
  cases v with
  | mapping kvs => simp [isinstanceVal] at h
  | vint n => simp [isinstanceVal] at h
  | vstr s => simp [isinstanceVal] at h
  | record c fs => simp [validateOneDoc, h]

/-- Under a concretely bound type, a successfully validated value is an
instance of the bound type. -/
theorem validateOneDoc_ok_instance {env : Env} {dt : String} {v w : Val}
    (hsub : isSubclassName env dt "AnyDoc" = false)
    (h : validateOneDoc env dt v = .ok w) : isinstanceVal env w dt = true := by
  cases v with
  | mapping kvs =>
    simp only [validateOneDoc, constructRecord, ne_anyDoc_of_not_sub hsub,
      Bool.false_eq_true, if_false] at h
    split at h
    · cases h
    · split at h
      · cases h
        simp [isinstanceVal]
      · cases h
  | vint n =>
    simp only [validateOneDoc, hsub] at h
    by_cases hi : isinstanceVal env (Val.vint n) dt = true
    · simp [isinstanceVal] at hi
    · simp [hi] at h
  | vstr s =>
    simp only [validateOneDoc, hsub] at h
    by_cases hi : isinstanceVal env (Val.vstr s) dt = true
    · simp [isinstanceVal] at hi
    · simp [hi] at h
  | record c fs =>
    simp only [validateOneDoc, hsub] at h
    by_cases hi : isinstanceVal env (Val.record c fs) dt = true
    · cases hi ▸ h; exact hi
    · simp [hi] at h

/-- A pattern begins every list it is prepended to. -/
theorem beginsWith_append (pat rest : List Char) :
    beginsWith pat (pat ++ rest) = true := by
  induction pat with
  | nil => rfl
  | cons a as ih => simp [beginsWith, ih]

/-- A pattern occurs at the head of its own extension. -/
theorem containsSeq_here (pat r : List Char) :
    containsSeq pat (pat ++ r) = true := by
  cases pat with
  | nil => cases r <;> simp [containsSeq, beginsWith]
  | cons c cs =>
    have hb : beginsWith (c :: cs) ((c :: cs) ++ r) = true := beginsWith_append _ _
    simp only [List.cons_append] at hb ⊢
    simp [containsSeq, hb]

/-- A pattern occurs in any list that embeds it contiguously. -/
theorem containsSeq_append (l pat r : List Char) :
    containsSeq pat (l ++ pat ++ r) = true := by
  induction l with
  | nil => simpa using containsSeq_here pat r
  | cons a as ih =>
    simp only [List.append_assoc] at ih
    simp [containsSeq, ih]

/-- A message names every string it embeds: the part before, the named
string, the part after. -/
theorem msgNames_embed (l p r : String) : msgNames (l ++ p ++ r) p = true := by
  simp only [msgNames, String.data_append]
  exact containsSeq_append l.data p.data r.data

/-- A message names its own leading segment. -/
theorem msgNames_left (p r : String) : msgNames (p ++ r) p = true := by
  simp only [msgNames, String.data_append]
  exact containsSeq_here p.data r.data

/-! ### Claim C1 -/

/-- Claim C1 (amended): when the bound schema is the unconstrained marker
`AnyDoc`, any non-mapping value is validated to itself, unchanged — but a
raw mapping IS converted: it is keyword-passed to the marker type and
stored as the resulting record, both by `_validate_one_doc` itself and
through the `append` entry point. -/
theorem c1_anydoc_validation (env : Env) (l : List Val) (v : Val) :
    validateOneDoc env "AnyDoc" v =
      .ok (match v with
           | .mapping kvs => Val.record "AnyDoc" kvs
           | w => w) ∧
    appendDA env ⟨"AnyDoc", l⟩ v =
      .ok ⟨"AnyDoc",
        l ++ [match v with
              | .mapping kvs => Val.record "AnyDoc" kvs
              | w => w]⟩ := by
  have h : validateOneDoc env "AnyDoc" v =
      .ok (match v with
           | .mapping kvs => Val.record "AnyDoc" kvs
           | w => w) := by
    cases v <;> simp [validateOneDoc, constructRecord]
  exact ⟨h, by simp [appendDA, h]⟩

/-- Claim C1 counterexample: under the unconstrained marker, constructing
a container from a raw mapping does NOT store the mapping as-is — the
stored element is an `AnyDoc` record built from the entries of the mapping,
which is a different value. -/
theorem c1_counterexample :
    mkDocArray envA "AnyDoc" [Val.mapping [("x", Val.vint 1)]] =
      .ok ⟨"AnyDoc", [Val.record "AnyDoc" [("x", Val.vint 1)]]⟩ ∧
    Val.record "AnyDoc" [("x", Val.vint 1)] ≠ Val.mapping [("x", Val.vint 1)] := by
  refine ⟨rfl, ?_⟩
  intro h
  exact Val.noConfusion h

/-! ### Claim C4 -/

/-- Claim C4 (amended): under a concretely bound schema, a mapping is
keyword-converted via record construction; an instance of the bound type
(or a subtype, through the subclass chain inside `isinstanceVal`) passes
through unchanged; any other non-mapping value raises
a `ValueError` interpolating the doc and the bound type — a message that names the
offending value and the expected type (not the actual type, see the
counterexample). -/
theorem c4_concrete_validation (env : Env) (dt : String)
    (hconc : isSubclassName env dt "AnyDoc" = false) :
    (∀ kvs, validateOneDoc env dt (Val.mapping kvs) = constructRecord env dt kvs) ∧
    (∀ v, isinstanceVal env v dt = true → validateOneDoc env dt v = .ok v) ∧
    (∀ v, isMappingVal v = false → isinstanceVal env v dt = false →
      validateOneDoc env dt v =
        .error (.valueError (reprVal v ++ " is not a " ++ typeRepr dt)) ∧
      msgNames (reprVal v ++ " is not a " ++ typeRepr dt) (reprVal v) = true ∧
      msgNames (reprVal v ++ " is not a " ++ typeRepr dt) dt = true) := by
  refine ⟨fun kvs => rfl, fun v hv => validateOneDoc_instance hv, fun v hm hi => ?_⟩
  refine ⟨?_, ?_, ?_⟩
  · cases v with
    | mapping kvs => simp [isMappingVal] at hm
    | vint n => simp [validateOneDoc, hconc, hi]
    | vstr s => simp [validateOneDoc, hconc, hi]
    | record c fs => simp [validateOneDoc, hconc, hi]
  · have h := msgNames_left (reprVal v) (" is not a " ++ typeRepr dt)
    simpa [String.append_assoc] using h
  · have h := msgNames_embed (reprVal v ++ " is not a " ++ "<class ") dt ">"
    simpa [typeRepr, String.append_assoc] using h

/-- Claim C4 witness: concrete instances of the three validation legs for
`DocArray[A]`. -/
theorem c4_concrete_validation_witness :
    validateOneDoc envA "A" (Val.mapping [("x", Val.vint 3)]) =
      constructRecord envA "A" [("x", Val.vint 3)] ∧
    validateOneDoc envA "A" a1 = .ok a1 ∧
    validateOneDoc envA "A" (Val.vint 5) =
      .error (.valueError (reprVal (Val.vint 5) ++ " is not a " ++ typeRepr "A")) := by
  have h := c4_concrete_validation envA "A" (by decide)
  exact ⟨h.1 [("x", Val.vint 3)], h.2.1 a1 rfl, (h.2.2 (Val.vint 5) rfl rfl).1⟩

/-- Claim C4 counterexample: validating the integer `5` against
`DocArray[A]` raises `ValueError("5 is not a <class A>")` — the message
names the offending value and the expected type, but the actual type of
the value (`int`) appears nowhere in it. -/
theorem c4_counterexample :
    validateOneDoc envA "A" (Val.vint 5) =
      .error (.valueError "5 is not a <class A>") ∧
    msgNames "5 is not a <class A>" (typeNameOf (Val.vint 5)) = false := by
  exact ⟨rfl, rfl⟩

/-! ### Claims C2 and C6 -/

/-- Consuming the extend loop over a list with a first failing element:
the validated elements before the failure are appended to the accumulator
one by one, and the loop stops with the failure, never reaching the tail. -/
theorem extendLoop_firstFail (env : Env) (dt : String) (bad : Val) (e : Err)
    (hbad : validateOneDoc env dt bad = .error e) (good : List Val) :
    ∀ (ws acc rest : List Val),
      validateDocsAll env dt good = .ok ws →
      extendLoop env dt acc (good ++ bad :: rest) = (acc ++ ws, some e) := by
  induction good with
  | nil =>
    intro ws acc rest hgood
    simp only [validateDocsAll] at hgood
    injection hgood with h
    subst h
    simp [extendLoop, hbad]
  | cons d ds ih =>
    intro ws acc rest hgood
    simp only [validateDocsAll] at hgood
    cases hv : validateOneDoc env dt d with
    | error e2 => rw [hv] at hgood; cases hgood
    | ok w =>
      rw [hv] at hgood
      cases hrec : validateDocsAll env dt ds with
      | error e2 => rw [hrec] at hgood; cases hgood
      | ok ws2 =>
        rw [hrec] at hgood
        injection hgood with h
        subst h
        have := ih ws2 (acc ++ [w]) rest hrec
        simp only [List.cons_append, extendLoop, hv, List.append_eq]
        rw [this]
        simp

/-- Positions `0` through `k` of a list whose element at position
`k = good.length` is `bad`. -/
theorem take_append_cons (good : List Val) (bad : Val) (rest : List Val) :
    (good ++ bad :: rest).take (good.length + 1) = good ++ [bad] := by
  induction good with
  | nil => simp
  | cons a as ih => simp [ih]

/-- Claim C2 (amended): when `extend` hits its first failing element, the
validation error escapes at that point and nothing at or after the
failure is appended — but the validated elements BEFORE the failure have
already been pushed by `list.extend`, so the container ends as its old
contents followed by the validated prefix, not unchanged. -/
theorem c2_extend_midfail (env : Env) (C : DocArray)
    (good : List Val) (bad : Val) (rest ws : List Val) (e : Err)
    (hgood : validateDocsAll env C.docType good = .ok ws)
    (hbad : validateOneDoc env C.docType bad = .error e) :
    extendDA env C (good ++ bad :: rest) = (⟨C.docType, C.data ++ ws⟩, some e) := by
  simp [extendDA, extendLoop_firstFail env C.docType bad e hbad good ws C.data rest hgood]

/-- Claim C2 witness: extending `DocArray[A]` containing `a1` with
`[a2, 5, a1]` fails on `5`, yet leaves the container holding `[a1, a2]`. -/
theorem c2_extend_midfail_witness :
    validateDocsAll envA "A" [a2] = .ok [a2] ∧
    validateOneDoc envA "A" (Val.vint 5) =
      .error (.valueError "5 is not a <class A>") ∧
    extendDA envA CA ([a2] ++ Val.vint 5 :: [a1]) =
      (⟨"A", CA.data ++ [a2]⟩, some (.valueError "5 is not a <class A>")) := by
  refine ⟨rfl, rfl, ?_⟩
  exact c2_extend_midfail envA CA [a2] (Val.vint 5) [a1] [a2] _ rfl rfl

/-- Claim C2 counterexample: `extend` over an iterable whose second
element fails validation raises — but the valid first element has already
been appended, so the container is NOT left unchanged. -/
theorem c2_counterexample :
    (extendDA envA CA [a2, Val.vint 5]).2 =
      some (.valueError "5 is not a <class A>") ∧
    (extendDA envA CA [a2, Val.vint 5]).1.data = [a1, a2] ∧
    [a1, a2] ≠ CA.data := by
  refine ⟨rfl, rfl, ?_⟩
  intro h
  simp [CA] at h

/-- Claim C6: `_validate_docs` is lazy.  For an input whose first invalid
element sits at position `k = good.length`, consuming the generator
invokes `_validate_one_doc` on exactly the elements at positions `0`
through `k` in input order (`good ++ [bad]`, the `take (k+1)` of the
input), raises the failure of position `k`, and never validates or
constructs anything past position `k`. -/
theorem c6_validate_lazy (env : Env) (dt : String)
    (good : List Val) (bad : Val) (rest ws : List Val) (e : Err)
    (hgood : validateDocsAll env dt good = .ok ws)
    (hbad : validateOneDoc env dt bad = .error e) :
    validateDocsCalls env dt (good ++ bad :: rest) = good ++ [bad] ∧
    (good ++ bad :: rest).take (good.length + 1) = good ++ [bad] ∧
    validateDocsAll env dt (good ++ bad :: rest) = .error e := by
  refine ⟨?_, take_append_cons good bad rest, ?_⟩
  · induction good generalizing ws with
    | nil => simp [validateDocsCalls, hbad]
    | cons d ds ih =>
      simp only [validateDocsAll] at hgood
      cases hv : validateOneDoc env dt d with
      | error e2 => rw [hv] at hgood; cases hgood
      | ok w =>
        rw [hv] at hgood
        cases hrec : validateDocsAll env dt ds with
        | error e2 => rw [hrec] at hgood; cases hgood
        | ok ws2 =>
          simp [validateDocsCalls, hv, ih ws2 hrec]
  · induction good generalizing ws with
    | nil => simp [validateDocsAll, hbad]
    | cons d ds ih =>
      simp only [validateDocsAll] at hgood
      cases hv : validateOneDoc env dt d with
      | error e2 => rw [hv] at hgood; cases hgood
      | ok w =>
        rw [hv] at hgood
        cases hrec : validateDocsAll env dt ds with
        | error e2 => rw [hrec] at hgood; cases hgood
        | ok ws2 =>
          simp [validateDocsAll, hv, ih ws2 hrec]

/-- Claim C6 witness: on `[a1, 5, a2]` under schema `A`, the validator is
invoked on `a1` and `5` only, and the consumption raises the failure of
position `1`; `a2` is never touched. -/
theorem c6_validate_lazy_witness :
    validateDocsCalls envA "A" ([a1] ++ Val.vint 5 :: [a2]) = [a1] ++ [Val.vint 5] ∧
    ([a1] ++ Val.vint 5 :: [a2]).take ([a1].length + 1) = [a1] ++ [Val.vint 5] ∧
    validateDocsAll envA "A" ([a1] ++ Val.vint 5 :: [a2]) =
      .error (.valueError "5 is not a <class A>") :=
  c6_validate_lazy envA "A" [a1] (Val.vint 5) [a2] [a1] _ rfl rfl

/-! ### Claim C3 -/

/-- The write `_set_data_column` performs on one element, as a total
function: it agrees with `setAttrVal` on record elements and is used only
to state results (non-records are returned untouched). -/
def setAttrTotal (d : Val) (f : String) (w : Val) : Val :=
  match d with
  | .record c fs => .record c (setField fs f w)
  | other => other

/-- The zip loop of `_set_data_column` in closed form, when all elements
are records: the first `min` of the two lengths get written, the leftover
documents stay untouched, and no error is raised. -/
theorem setColLoop_eq (f : String) :
    ∀ (ds ws : List Val), (∀ d ∈ ds, isRecordVal d = true) →
      setColLoop f ds ws =
        ((ds.zip ws).map (fun p => setAttrTotal p.1 f p.2) ++ ds.drop ws.length,
         none) := by
  intro ds
  induction ds with
  | nil => intro ws h; cases ws <;> simp [setColLoop]
  | cons d ds ih =>
    intro ws h
    cases ws with
    | nil => simp [setColLoop]
    | cons w ws2 =>
      have hd : isRecordVal d = true := h d (by simp)
      cases d with
      | vint n => simp [isRecordVal] at hd
      | vstr s => simp [isRecordVal] at hd
      | mapping kvs => simp [isRecordVal] at hd
      | record c fs =>
        have hrest : ∀ x ∈ ds, isRecordVal x = true := fun x hx => h x (by simp [hx])
        simp [setColLoop, setAttrVal, setAttrTotal, ih ws2 hrest]

/-- Claim C3 (amended): `set_column(f, values)` with a length mismatch
does NOT fail — the zip stops at the shorter sequence, so exactly the
first `min(len(values), len(C))` documents get field `f` written to the
corresponding value, the remaining documents are left untouched, and no
error of any kind is raised. -/
theorem c3_set_column_truncates (C : DocArray) (f : String) (values : List Val)
    (hrec : ∀ d ∈ C.data, isRecordVal d = true) :
    setDataColumn C f values =
      (⟨C.docType,
        (C.data.zip values).map (fun p => setAttrTotal p.1 f p.2) ++
          C.data.drop values.length⟩, none) := by
  simp [setDataColumn, setColLoop_eq f C.data values hrec]

/-- Claim C3 witness: writing a one-element value list into the
two-element `DocArray[A]` silently writes the first document only. -/
theorem c3_set_column_truncates_witness :
    setDataColumn CA2 "x" [Val.vint 9] =
      (⟨"A",
        (CA2.data.zip [Val.vint 9]).map (fun p => setAttrTotal p.1 "x" p.2) ++
          CA2.data.drop [Val.vint 9].length⟩, none) :=
  c3_set_column_truncates CA2 "x" [Val.vint 9]
    (by intro d hd; simp [CA2] at hd; rcases hd with rfl | rfl <;> rfl)

/-- Claim C3 counterexample: on a 2-document container and a 1-value
list, `set_column` raises nothing and rewrites the first document, so it
neither fails with a length error nor leaves every document unchanged. -/
theorem c3_counterexample :
    (setDataColumn CA2 "x" [Val.vint 9]).2 = none ∧
    (setDataColumn CA2 "x" [Val.vint 9]).1.data =
      [Val.record "A" [("x", Val.vint 9), ("inner", inner1)], a2] ∧
    Val.record "A" [("x", Val.vint 9), ("inner", inner1)] ≠ a1 ∧
    [Val.vint 9].length ≠ CA2.data.length := by
  refine ⟨rfl, rfl, ?_, by simp [CA2]⟩
  intro h
  simp [a1] at h

/-! ### Claim C8 -/

/-- Claim C8: appending a valid record of the bound type succeeds, the
new backing list is the old one with the record at the end — so the last
element is the appended record, the length grows by exactly one, and the
prefix holding every other element is unchanged. -/
theorem c8_append (env : Env) (C : DocArray) (r : Val)
    (hinst : isinstanceVal env r C.docType = true) :
    appendDA env C r = .ok ⟨C.docType, C.data ++ [r]⟩ ∧
    (C.data ++ [r]).getLast? = some r ∧
    (C.data ++ [r]).length = C.data.length + 1 ∧
    (C.data ++ [r]).take C.data.length = C.data := by
  refine ⟨?_, ?_, by simp, ?_⟩
  · simp [appendDA, validateOneDoc_instance hinst]
  · simp
  · simp [List.take_left]

/-- Claim C8 witness: appending `a2` to the one-element `DocArray[A]`. -/
theorem c8_append_witness :
    appendDA envA CA a2 = .ok ⟨"A", CA.data ++ [a2]⟩ ∧
    (CA.data ++ [a2]).getLast? = some a2 ∧
    (CA.data ++ [a2]).length = CA.data.length + 1 ∧
    (CA.data ++ [a2]).take CA.data.length = CA.data :=
  c8_append envA CA a2 rfl

/-! ### Claim C7 -/

/-- Every output of a successful whole-iterable validation under a
concretely bound type is an instance of that type. -/
theorem validateDocsAll_inst {env : Env} {dt : String}
    (hsub : isSubclassName env dt "AnyDoc" = false) :
    ∀ (ds ws : List Val), validateDocsAll env dt ds = .ok ws →
      ∀ v ∈ ws, isinstanceVal env v dt = true := by
  intro ds
  induction ds with
  | nil =>
    intro ws h v hv
    simp only [validateDocsAll] at h
    injection h with h2
    subst h2
    cases hv
  | cons d ds ih =>
    intro ws h v hv
    simp only [validateDocsAll] at h
    cases hd : validateOneDoc env dt d with
    | error e => rw [hd] at h; cases h
    | ok w =>
      rw [hd] at h
      cases hrec : validateDocsAll env dt ds with
      | error e => rw [hrec] at h; cases h
      | ok ws2 =>
        rw [hrec] at h
        injection h with h2
        subst h2
        rcases List.mem_cons.mp hv with rfl | hv2
        · exact validateOneDoc_ok_instance hsub hd
        · exact ih ws2 hrec v hv2

/-- Whatever state the extend loop stops in, its elements come from the
accumulator or passed validation. -/
theorem extendLoop_inst {env : Env} {dt : String}
    (hsub : isSubclassName env dt "AnyDoc" = false) :
    ∀ (ds acc : List Val), (∀ v ∈ acc, isinstanceVal env v dt = true) →
      ∀ v ∈ (extendLoop env dt acc ds).1, isinstanceVal env v dt = true := by
  intro ds
  induction ds with
  | nil => intro acc hacc v hv; exact hacc v hv
  | cons d ds ih =>
    intro acc hacc v hv
    rw [extendLoop] at hv
    cases hd : validateOneDoc env dt d with
    | error e => rw [hd] at hv; exact hacc v hv
    | ok w =>
      rw [hd] at hv
      refine ih (acc ++ [w]) ?_ v hv
      intro u hu
      rcases List.mem_append.mp hu with hu2 | hu2
      · exact hacc u hu2
      · rw [List.mem_singleton.mp hu2]
        exact validateOneDoc_ok_instance hsub hd

/-- Elements of an insertion come from the inserted value or the list. -/
theorem insertAt_mem {p : Nat} {w v : Val} {l : List Val}
    (h : v ∈ insertAt p w l) : v = w ∨ v ∈ l := by
  rcases List.mem_append.mp h with h2 | h2
  · exact Or.inr (List.take_subset p l h2)
  · rcases List.mem_cons.mp h2 with rfl | h3
    · exact Or.inl rfl
    · exact Or.inr (List.drop_subset p l h3)

/-- Python `list.remove` only deletes: the result is contained in the input. -/
theorem removeLoop_subset {x : Val} :
    ∀ {l l2 : List Val}, removeLoop x l = some l2 → ∀ v ∈ l2, v ∈ l := by
  intro l
  induction l with
  | nil => intro l2 h; cases h
  | cons a as ih =>
    intro l2 h v hv
    rw [removeLoop] at h
    by_cases hb : valBeq a x = true
    · rw [if_pos hb] at h
      injection h with h2
      subst h2
      exact List.mem_cons_of_mem a hv
    · rw [if_neg hb] at h
      cases hrec : removeLoop x as with
      | none => rw [hrec] at h; cases h
      | some vs2 =>
        rw [hrec] at h
        injection h with h2
        subst h2
        rcases List.mem_cons.mp hv with rfl | hv2
        · exact List.mem_cons_self v as
        · exact List.mem_cons_of_mem a (ih hrec v hv2)

/-- Elements of an insertion-sort step come from the value or the list. -/
theorem insertSorted_mem {le : Val → Val → Bool} {w v : Val} :
    ∀ {l : List Val}, v ∈ insertSorted le w l → v = w ∨ v ∈ l := by
  intro l
  induction l with
  | nil =>
    intro h
    rcases List.mem_singleton.mp h with rfl
    exact Or.inl rfl
  | cons a as ih =>
    intro h
    rw [insertSorted] at h
    by_cases hb : le w a = true
    · rw [if_pos hb] at h
      rcases List.mem_cons.mp h with rfl | h2
      · exact Or.inl rfl
      · exact Or.inr h2
    · rw [if_neg hb] at h
      rcases List.mem_cons.mp h with rfl | h2
      · exact Or.inr (List.mem_cons_self v as)
      · rcases ih h2 with h3 | h3
        · exact Or.inl h3
        · exact Or.inr (List.mem_cons_of_mem a h3)

/-- Sorting only permutes: the result is contained in the input. -/
theorem sortList_mem {le : Val → Val → Bool} :
    ∀ {l : List Val} {v : Val}, v ∈ sortList le l → v ∈ l := by
  intro l
  induction l with
  | nil => intro v h; cases h
  | cons a as ih =>
    intro v h
    rw [sortList] at h
    rcases insertSorted_mem h with rfl | h2
    · exact List.mem_cons_self v as
    · exact List.mem_cons_of_mem a (ih h2)

/-- One mutating operation preserves the bound type and the instance
invariant on the backing list — whether or not it raises. -/
theorem runOp_preserves {env : Env} {dt : String}
    (hsub : isSubclassName env dt "AnyDoc" = false)
    (C : DocArray) (hdt : C.docType = dt)
    (hinv : ∀ v ∈ C.data, isinstanceVal env v dt = true) (op : Op) :
    (runOp env C op).1.docType = dt ∧
    ∀ v ∈ (runOp env C op).1.data, isinstanceVal env v dt = true := by
  subst hdt
  cases op with
  | opAppend a =>
    cases hv : validateOneDoc env C.docType a with
    | error e => simp only [runOp, appendDA, hv]; exact ⟨by trivial, hinv⟩
    | ok w =>
      simp only [runOp, appendDA, hv]
      refine ⟨by trivial, fun v hv2 => ?_⟩
      rcases List.mem_append.mp hv2 with h2 | h2
      · exact hinv v h2
      · rw [List.mem_singleton.mp h2]
        exact validateOneDoc_ok_instance hsub hv
  | opExtend vs =>
    simp only [runOp, extendDA]
    exact ⟨by trivial, fun v hv => extendLoop_inst hsub vs C.data hinv v hv⟩
  | opInsert i a =>
    cases hv : validateOneDoc env C.docType a with
    | error e => simp only [runOp, insertDA, hv]; exact ⟨by trivial, hinv⟩
    | ok w =>
      simp only [runOp, insertDA, hv]
      refine ⟨by trivial, fun v hv2 => ?_⟩
      rcases insertAt_mem hv2 with rfl | h2
      · exact validateOneDoc_ok_instance hsub hv
      · exact hinv v h2
  | opPop i =>
    cases hp : pyIndex C.data.length i with
    | none => simp only [runOp, popDA, hp]; exact ⟨by trivial, hinv⟩
    | some p =>
      cases hg : C.data.get? p with
      | none => simp only [runOp, popDA, hp, hg]; exact ⟨by trivial, hinv⟩
      | some u =>
        simp only [runOp, popDA, hp, hg]
        refine ⟨by trivial, fun v hv2 => ?_⟩
        rcases List.mem_append.mp hv2 with h2 | h2
        · exact hinv v (List.take_subset p C.data h2)
        · exact hinv v (List.drop_subset (p + 1) C.data h2)
  | opRemove x =>
    cases hr : removeLoop x C.data with
    | none => simp only [runOp, removeDA, hr]; exact ⟨by trivial, hinv⟩
    | some l2 =>
      simp only [runOp, removeDA, hr]
      exact ⟨by trivial, fun v hv2 => hinv v (removeLoop_subset hr v hv2)⟩
  | opReverse =>
    simp only [runOp]
    exact ⟨by trivial, fun v hv2 => hinv v (List.mem_reverse.mp hv2)⟩
  | opSort le =>
    simp only [runOp]
    exact ⟨by trivial, fun v hv2 => hinv v (sortList_mem hv2)⟩

/-- A straight-line sequence of mutating operations preserves the bound
type and the instance invariant. -/
theorem runOps_preserves {env : Env} {dt : String}
    (hsub : isSubclassName env dt "AnyDoc" = false) :
    ∀ (ops : List Op) (C : DocArray), C.docType = dt →
      (∀ v ∈ C.data, isinstanceVal env v dt = true) →
      (runOps env C ops).1.docType = dt ∧
      ∀ v ∈ (runOps env C ops).1.data, isinstanceVal env v dt = true := by
  intro ops
  induction ops with
  | nil => intro C hdt hinv; exact ⟨hdt, hinv⟩
  | cons op ops ih =>
    intro C hdt hinv
    have h := runOp_preserves hsub C hdt hinv op
    rw [runOps]
    cases hro : runOp env C op with
    | mk C2 oe =>
      rw [hro] at h
      cases oe with
      | none => exact ih C2 h.1 h.2
      | some e => exact h

/-- Claim C7: starting from a constructed container bound to a concrete
document type, any sequence of `append`/`extend`/`insert`/`pop`/`remove`/
`reverse`/`sort` calls that completes without raising leaves every
element of the backing list an instance of the bound type.  (When the
bound type is the unconstrained marker the claim imposes nothing.) -/
theorem c7_invariant (env : Env) (dt : String) (docs : List Val)
    (C0 : DocArray) (ops : List Op)
    (hsub : isSubclassName env dt "AnyDoc" = false)
    (hmk : mkDocArray env dt docs = .ok C0)
    (hnoerr : (runOps env C0 ops).2 = none) :
    ∀ v ∈ (runOps env C0 ops).1.data, isinstanceVal env v dt = true := by
  have hC0 : C0.docType = dt ∧ ∀ v ∈ C0.data, isinstanceVal env v dt = true := by
    simp only [mkDocArray] at hmk
    cases hva : validateDocsAll env dt docs with
    | error e => rw [hva] at hmk; cases hmk
    | ok ws =>
      rw [hva] at hmk
      injection hmk with h2
      subst h2
      exact ⟨rfl, validateDocsAll_inst hsub docs ws hva⟩
  exact (runOps_preserves hsub ops C0 hC0.1 hC0.2).2

/-- Claim C7 witness: construct `DocArray[A]` from `[a1]`, append `a2`,
sort, reverse; the run raises nothing and both final elements are
instances of `A`. -/
theorem c7_invariant_witness :
    isinstanceVal envA a1 "A" = true ∧ isinstanceVal envA a2 "A" = true := by
  have h := c7_invariant envA "A" [a1] ⟨"A", [a1]⟩
    [Op.opAppend a2, Op.opSort (fun _ _ => true), Op.opReverse]
    (by decide) rfl rfl
  constructor
  · refine h a1 ?_
    show a1 ∈ [a2, a1]
    simp
  · refine h a2 ?_
    show a2 ∈ [a2, a1]
    simp

/-! ### Claims C5, C9 and C10 -/

/-- When every element has the field and its value is an instance of the
nested document type, the record-branch extraction succeeds and returns
exactly the extracted values, in order. -/
theorem collectColumn_ok {env : Env} {n f : String} :
    ∀ {ds : List Val},
      (∀ d ∈ ds, ∃ v, getattrVal d f = some v ∧ isinstanceVal env v n = true) →
      ∃ ws, collectColumn env n f ds = .ok ws ∧
        ws.map Option.some = ds.map (fun d => getattrVal d f) := by
  intro ds
  induction ds with
  | nil => intro h; exact ⟨[], rfl, rfl⟩
  | cons d ds ih =>
    intro h
    obtain ⟨v, hg, hi⟩ := h d (by simp)
    obtain ⟨ws, hc, hm⟩ := ih (fun x hx => h x (by simp [hx]))
    refine ⟨v :: ws, ?_, ?_⟩
    · simp [collectColumn, hg, validateOneDoc_instance hi, hc]
    · simp [hm, hg]

/-- When every element has the field, the list-branch extraction succeeds
and returns exactly the extracted values, in order. -/
theorem collectPlain_ok {f : String} :
    ∀ {ds : List Val}, (∀ d ∈ ds, ∃ v, getattrVal d f = some v) →
      ∃ vs, collectPlain f ds = .ok vs ∧
        vs.map Option.some = ds.map (fun d => getattrVal d f) := by
  intro ds
  induction ds with
  | nil => intro h; exact ⟨[], rfl, rfl⟩
  | cons d ds ih =>
    intro h
    obtain ⟨v, hg⟩ := h d (by simp)
    obtain ⟨vs, hc, hm⟩ := ih (fun x hx => h x (by simp [hx]))
    refine ⟨v :: vs, ?_, ?_⟩
    · simp [collectPlain, hg, hc]
    · simp [hm, hg]

/-- Writing back the value a key already holds leaves the field list
unchanged. -/
theorem setField_self :
    ∀ {fs : List (String × Val)} {f : String} {v : Val},
      lookupField fs f = some v → setField fs f v = fs := by
  intro fs
  induction fs with
  | nil => intro f v h; simp [lookupField] at h
  | cons p rest ih =>
    intro f v h
    obtain ⟨g, u⟩ := p
    rw [lookupField] at h
    rw [setField]
    by_cases hg : (g == f) = true
    · simp only [hg, if_true] at h ⊢
      injection h with h2
      simp [h2]
    · simp only [hg, Bool.false_eq_true, if_false] at h ⊢
      rw [ih h]

/-- Writing the own field value of each document back is the identity on the
backing list and raises nothing. -/
theorem setColLoop_self {f : String} :
    ∀ {ds ws : List Val},
      ws.map Option.some = ds.map (fun d => getattrVal d f) →
      (∀ d ∈ ds, isRecordVal d = true) →
      setColLoop f ds ws = (ds, none) := by
  intro ds
  induction ds with
  | nil =>
    intro ws hmap h
    cases ws with
    | nil => rfl
    | cons w ws2 => simp at hmap
  | cons d ds ih =>
    intro ws hmap h
    cases ws with
    | nil => simp at hmap
    | cons w ws2 =>
      simp only [List.map_cons, List.cons.injEq] at hmap
      obtain ⟨hw, hrest⟩ := hmap
      have hd := h d (by simp)
      cases d with
      | vint n => simp [isRecordVal] at hd
      | vstr s => simp [isRecordVal] at hd
      | mapping kvs => simp [isRecordVal] at hd
      | record c fs =>
        have hl : lookupField fs f = some w := hw.symm
        have hrec2 : ∀ x ∈ ds, isRecordVal x = true := fun x hx => h x (by simp [hx])
        simp [setColLoop, setAttrVal, setField_self hl, ih hrest hrec2]

/-- Claim C5: under the hypotheses that the bound type declares field `f`
at type `ty` and every stored document carries a conforming value for `f`
(which construction-time validation guarantees), `get_column` returns —
when `ty` is a non-union document type — a new container specialized to
that type, of the container length, whose `i`-th element is
`getattr(doc_i, f)`; otherwise (scalar, union, or the unconstrained lookup) it returns
the plain ordered list of the extracted values. -/
theorem c5_get_column (env : Env) (C : DocArray) (f : String) (ty : FieldTy)
    (hty : getFieldType env C.docType f = some ty)
    (hwf : ∀ d ∈ C.data, ∃ v, getattrVal d f = some v ∧ valMatchesTy env v ty = true) :
    (∀ n, ty = FieldTy.recordName n → isDocFieldTy env ty = true →
      ∃ D, getDataColumn env C f = .ok (.colDA D) ∧
        D.docType = n ∧ D.data.length = C.data.length ∧
        D.data.map Option.some = C.data.map (fun d => getattrVal d f)) ∧
    (isDocFieldTy env ty = false →
      ∃ vs, getDataColumn env C f = .ok (.colList vs) ∧
        vs.length = C.data.length ∧
        vs.map Option.some = C.data.map (fun d => getattrVal d f)) := by
  constructor
  · intro n hn hb
    subst hn
    obtain ⟨ws, hc, hm⟩ := @collectColumn_ok env n f C.data
      (fun d hd => by
        obtain ⟨v, hg, hv⟩ := hwf d hd
        exact ⟨v, hg, hv⟩)
    refine ⟨⟨n, ws⟩, ?_, rfl, ?_, hm⟩
    · simp [getDataColumn, hty, hb, hc]
    · have := congrArg List.length hm
      simpa using this
  · intro hb
    obtain ⟨vs, hc, hm⟩ := @collectPlain_ok f C.data
      (fun d hd => by
        obtain ⟨v, hg, _⟩ := hwf d hd
        exact ⟨v, hg⟩)
    refine ⟨vs, ?_, ?_, hm⟩
    · simp [getDataColumn, hty, hb, hc]
    · have := congrArg List.length hm
      simpa using this

/-- Claim C5 witness: on the two-element `DocArray[A]`, the
document-typed field `inner` projects to a `DocArray[Inner]` holding the
two nested documents in order, and the scalar field `x` projects to the
plain list of its values. -/
theorem c5_get_column_witness :
    getDataColumn envA CA2 "inner" = .ok (.colDA ⟨"Inner", [inner1, inner2]⟩) ∧
    [inner1, inner2].map Option.some = CA2.data.map (fun d => getattrVal d "inner") ∧
    getDataColumn envA CA2 "x" = .ok (.colList [Val.vint 1, Val.vint 2]) ∧
    [Val.vint 1, Val.vint 2].map Option.some =
      CA2.data.map (fun d => getattrVal d "x") := by
  have hrec := (c5_get_column envA CA2 "inner" (.recordName "Inner") rfl
    (by
      intro d hd
      simp [CA2] at hd
      rcases hd with rfl | rfl
      · exact ⟨inner1, rfl, rfl⟩
      · exact ⟨inner2, rfl, rfl⟩)).1 "Inner" rfl rfl
  have hlist := (c5_get_column envA CA2 "x" (.scalarTy "int") rfl
    (by
      intro d hd
      simp [CA2] at hd
      rcases hd with rfl | rfl
      · exact ⟨Val.vint 1, rfl, rfl⟩
      · exact ⟨Val.vint 2, rfl, rfl⟩)).2 rfl
  obtain ⟨D, h1, hdt, hlen, hmap⟩ := hrec
  obtain ⟨vs, h2, hlen2, hmap2⟩ := hlist
  have he1 : getDataColumn envA CA2 "inner" =
      .ok (.colDA ⟨"Inner", [inner1, inner2]⟩) := rfl
  have he2 : getDataColumn envA CA2 "x" = .ok (.colList [Val.vint 1, Val.vint 2]) := rfl
  rw [he1] at h1
  injection h1 with h3
  injection h3 with h4
  rw [he2] at h2
  injection h2 with h5
  injection h5 with h6
  subst h4
  subst h6
  exact ⟨he1, hmap, he2, hmap2⟩

/-- Claim C9: for a container of documents that conform to the declared
type of field `f`, `get_column(f)` succeeds and
`set_column(f, get_column(f))` writes the own value of every document back,
leaving the container observably unchanged (same length, order and
documents) and raising nothing. -/
theorem c9_roundtrip (env : Env) (C : DocArray) (f : String) (ty : FieldTy)
    (hty : getFieldType env C.docType f = some ty)
    (hwf : ∀ d ∈ C.data, ∃ c fs v, d = Val.record c fs ∧
      lookupField fs f = some v ∧ valMatchesTy env v ty = true) :
    ∃ res, getDataColumn env C f = .ok res ∧
      setDataColumn C f (colValues res) = (C, none) := by
  have hattr : ∀ d ∈ C.data, ∃ v, getattrVal d f = some v ∧
      valMatchesTy env v ty = true := by
    intro d hd
    obtain ⟨c, fs, v, rfl, hl, hm⟩ := hwf d hd
    exact ⟨v, hl, hm⟩
  have hrec : ∀ d ∈ C.data, isRecordVal d = true := by
    intro d hd
    obtain ⟨c, fs, v, rfl, _, _⟩ := hwf d hd
    rfl
  have hset : ∀ ws : List Val,
      ws.map Option.some = C.data.map (fun d => getattrVal d f) →
      setDataColumn C f ws = (C, none) := by
    intro ws hm
    simp [setDataColumn, setColLoop_self hm hrec]
  cases hb : isDocFieldTy env ty with
  | true =>
    cases ty with
    | scalarTy s => simp [isDocFieldTy] at hb
    | unionTy t1 t2 => simp [isDocFieldTy] at hb
    | recordName n =>
      obtain ⟨ws, hc, hm⟩ := @collectColumn_ok env n f C.data hattr
      refine ⟨.colDA ⟨n, ws⟩, ?_, ?_⟩
      · simp [getDataColumn, hty, hb, hc]
      · exact hset ws hm
  | false =>
    obtain ⟨vs, hc, hm⟩ := @collectPlain_ok f C.data
      (fun d hd => by
        obtain ⟨v, hg, _⟩ := hattr d hd
        exact ⟨v, hg⟩)
    refine ⟨.colList vs, ?_, ?_⟩
    · simp [getDataColumn, hty, hb, hc]
    · exact hset vs hm

/-- Claim C9 witness: the `x` column of the two-element `DocArray[A]`,
written back, changes nothing. -/
theorem c9_roundtrip_witness :
    getDataColumn envA CA2 "x" = .ok (.colList [Val.vint 1, Val.vint 2]) ∧
    setDataColumn CA2 "x" [Val.vint 1, Val.vint 2] = (CA2, none) := by
  obtain ⟨res, h1, h2⟩ := c9_roundtrip envA CA2 "x" (.scalarTy "int") rfl
    (by
      intro d hd
      simp [CA2] at hd
      rcases hd with rfl | rfl
      · exact ⟨"A", [("x", Val.vint 1), ("inner", inner1)], Val.vint 1, rfl, rfl, rfl⟩
      · exact ⟨"A", [("x", Val.vint 2), ("inner", inner2)], Val.vint 2, rfl, rfl, rfl⟩)
  have he : getDataColumn envA CA2 "x" = .ok (.colList [Val.vint 1, Val.vint 2]) := rfl
  rw [he] at h1
  injection h1 with h3
  subst h3
  exact ⟨he, h2⟩

/-- Claim C10: `_get_data_column` is read-only — in the state-passing
rendering of the method the post-state container keeps its bound type,
its backing list and therefore the identity and order of every stored
record. -/
theorem c10_get_column_readonly (env : Env) (C : DocArray) (f : String)
    (_hok : ∃ r, (getDataColumnSt env C f).1 = .ok r) :
    (getDataColumnSt env C f).2.docType = C.docType ∧
    (getDataColumnSt env C f).2.data = C.data :=
  ⟨rfl, rfl⟩

/-- Claim C10 witness: projecting the `x` column of the two-element
`DocArray[A]` succeeds and leaves the container state intact. -/
theorem c10_get_column_readonly_witness :
    (getDataColumnSt envA CA2 "x").2.docType = CA2.docType ∧
    (getDataColumnSt envA CA2 "x").2.data = CA2.data :=
  c10_get_column_readonly envA CA2 "x" ⟨.colList [Val.vint 1, Val.vint 2], rfl⟩

end DocArraySpec
